import Mathlib

/-!
Shallow embedding of `src/Dictionary.ts` (Tirael/dictionaryjs).

The TypeScript class stores user entries as own enumerable string-keyed
properties of the object itself; the bookkeeping record `__private__` is
defined with `Object.defineProperty(this, "__private__", { value: {},
enumerable: false })`, i.e. it is an own, NON-enumerable, non-writable,
non-configurable property, and the `[Symbol.iterator]` instance field is
symbol-keyed, so `Object.keys(this)` returns exactly the user entries.

The source file is an ES module, so the emitted JavaScript runs in strict
mode: an assignment to the non-writable `__private__` property, or to the
setter-less `length` accessor of the prototype, throws a `TypeError`
(modelled as `Option.none`), and `delete this["__private__"]` on the
non-configurable property also throws.

Keys are modelled as `String` (the source documents keys as string-tested);
the `key == null` guard of `has` is vacuous for string keys.  JavaScript
property order places canonically-integer-like keys first in ascending
order; this reordering is not modelled (storage is kept in
insertion/update order, which is the JavaScript order for all
non-integer-like keys), and no theorem below depends on the relative order
of integer-like keys.
-/

/-- JavaScript values as used by the dictionary: the primitives that flow
through the API, plus markers for function values reached by prototype
lookup (`vfun`) and for host objects (`vobj`), such as the internal
`DictionaryInner` record and `Object.prototype`.  Numbers are modelled as
integers; no code path of the source performs non-integer arithmetic. -/
inductive JSValue where
  | vundefined
  | vnull
  | vbool (b : Bool)
  | vnum (n : Int)
  | vstr (s : String)
  | vfun (name : String)
  | vobj (tag : String)
  deriving DecidableEq, Repr

/-- Substring test on character lists: `hasSubstr pat l` is true iff `pat`
occurs contiguously in `l`.  This embeds `key.indexOf("__private__") >= 0`
from `has` (line 67 of the source). -/
def hasSubstr (pat : List Char) : List Char → Bool
  | [] => pat.isEmpty
  | c :: tl => pat.isPrefixOf (c :: tl) || hasSubstr pat tl

/-- The character list of the reserved property name `"__private__"`. -/
def privPat : List Char := "__private__".toList

/-- Fragment of the ECMAScript `ToNumber` conversion on strings, used only
through the loose comparison `x == false`: a whitespace-only string
converts to 0, an optionally signed decimal integer literal to its value,
and anything else to NaN (`none`).  The source never compares non-integer
numeric strings, so the integer fragment is exact for every value the
program can produce. -/
def strToNumber (s : String) : Option Int :=
  let t := s.trim
  if t = "" then some 0
  else if t.startsWith "-" then (t.drop 1).toNat?.map (fun n => -(n : Int))
  else if t.startsWith "+" then (t.drop 1).toNat?.map (fun n => (n : Int))
  else t.toNat?.map (fun n => (n : Int))

/-- The ECMAScript loose equality `x == false`, as used by `asyncForEach`
(line 281: `if (cbIterator(key, this[key], next) == false)`).  `false`
converts to the number 0, so the test holds for `false`, `0`, and strings
converting to 0 (such as the empty string), and fails for `undefined`,
`null`, `true`, nonzero numbers, non-numeric strings, functions and
objects. -/
def looseEqFalse : JSValue → Bool
  | .vundefined => false
  | .vnull => false
  | .vbool b => !b
  | .vnum n => n == 0
  | .vstr s => strToNumber s == some 0
  | .vfun _ => false
  | .vobj _ => false

/-- First-match lookup in the property list (JavaScript own-property read). -/
def storGet : List (String × JSValue) → String → Option JSValue
  | [], _ => none
  | (k, v) :: tl, key => if k = key then some v else storGet tl key

/-- JavaScript own-property write: updating an existing key keeps its
position in property order, a new key is appended. -/
def storSet : List (String × JSValue) → String → JSValue → List (String × JSValue)
  | [], key, val => [(key, val)]
  | (k, v) :: tl, key, val =>
    if k = key then (k, val) :: tl else (k, v) :: storSet tl key val

/-- JavaScript `delete`: removes the entry with the given key. -/
def storErase : List (String × JSValue) → String → List (String × JSValue)
  | [], _ => []
  | (k, v) :: tl, key => if k = key then storErase tl key else (k, v) :: storErase tl key

/-- State of one `Dictionary` object.  `storage` holds the own enumerable
string-keyed properties (the user entries) in JavaScript property order;
the other three fields are the `__private__` record set up by the
constructor (lines 19-21): `cacheKeys`, `invalidateKeys`, and `keys`
(named `keysCache` here because `keys()` is also a method). -/
structure Dictionary where
  storage : List (String × JSValue)
  cacheKeys : Bool
  invalidateKeys : Bool
  keysCache : Option (List String)
  deriving DecidableEq, Repr

/-- The constructor `new Dictionary(cacheKeys)`: empty storage,
`cacheKeys` as given, `invalidateKeys = true`, `keys = null`. -/
def Dictionary.init (cacheKeys : Bool) : Dictionary :=
  ⟨[], cacheKeys, true, none⟩

/-- `Object.keys(this)`: the user-visible own enumerable keys in property
order.  `__private__` is non-enumerable and the iterator field is
symbol-keyed, so neither appears. -/
def Dictionary.objectKeys (d : Dictionary) : List String :=
  d.storage.map Prod.fst

/-- Value returned by `getKeys()` (lines 110-121).  The source method both
returns a list and updates the cache; the embedding splits it into
`getKeysResult` (the returned list) and `getKeysUpd` (the state after the
call). -/
def Dictionary.getKeysResult (d : Dictionary) : List String :=
  if !d.cacheKeys then d.objectKeys
  else if d.invalidateKeys || d.keysCache.isNone then d.objectKeys
  else d.keysCache.getD []

/-- State change performed by `getKeys()`: with caching enabled and a
dirty or absent cache, the key list is rebuilt and the dirty flag
cleared. -/
def Dictionary.getKeysUpd (d : Dictionary) : Dictionary :=
  if !d.cacheKeys then d
  else if d.invalidateKeys || d.keysCache.isNone then
    { d with invalidateKeys := false, keysCache := some d.objectKeys }
  else d

/-- Value returned by `size()` (line 80): `this.getKeys().length`. -/
def Dictionary.sizeResult (d : Dictionary) : Nat :=
  d.getKeysResult.length

/-- String-keyed properties of the prototype chain of a `Dictionary`
object other than the exotic ones handled separately (`length`, a
setter-less accessor, and `__proto__`): the methods of
`Dictionary.prototype` and the members of `Object.prototype`. -/
def protoProps : List String :=
  ["constructor", "entries", "has", "size", "invalidate", "keys", "getKeys",
   "values", "remove", "set", "get", "getDefault", "empty", "clear",
   "asyncEmpty", "forEach", "each", "asyncForEach",
   "hasOwnProperty", "isPrototypeOf", "propertyIsEnumerable",
   "toLocaleString", "toString", "valueOf",
   "__defineGetter__", "__defineSetter__", "__lookupGetter__", "__lookupSetter__"]

/-- The JavaScript property read `this[key]`: own properties first (the
user storage, then the non-enumerable `__private__` record), then the
prototype chain: the `length` accessor invokes `this.size()`, `__proto__`
yields `Object.prototype`, the remaining prototype members are functions,
and everything else is `undefined`.  (The lazy cache rebuild that a
`length` read can trigger through `size()` only touches bookkeeping
fields and is elided here; no theorem below reads `length`.) -/
def jsGet (d : Dictionary) (k : String) : JSValue :=
  if k = "__private__" then .vobj "DictionaryInner"
  else
    match storGet d.storage k with
    | some v => v
    | none =>
      if k = "length" then .vnum d.sizeResult
      else if k = "__proto__" then .vobj "Object.prototype"
      else if protoProps.contains k then .vfun k
      else .vundefined

/-- `get(key)` (lines 162-164): `return this[key]`. -/
def Dictionary.get (d : Dictionary) (k : String) : JSValue :=
  jsGet d k

/-- `this.hasOwnProperty(key)`: own properties are the storage entries and
the non-enumerable `__private__` record (the iterator field is
symbol-keyed, and methods live on the prototype, not on the object). -/
def Dictionary.hasOwnProp (d : Dictionary) (k : String) : Bool :=
  (storGet d.storage k).isSome || k = "__private__"

/-- `has(key)` (lines 64-72): false for any string containing
`"__private__"`, otherwise `hasOwnProperty`.  (The `key == null` guard is
vacuous for string keys.) -/
def Dictionary.has (d : Dictionary) (k : String) : Bool :=
  if hasSubstr privPat k.toList then false else d.hasOwnProp k

/-- `invalidate()` (lines 94-96). -/
def Dictionary.invalidate (d : Dictionary) : Dictionary :=
  { d with invalidateKeys := true }

/-- The strict-mode assignment `this[key] = value`: writing the
non-writable own property `__private__` or the setter-less prototype
accessor `length` throws a `TypeError` (`none`); the exotic `__proto__`
setter ignores the primitive values used here and creates no own
property; any other key is written into storage. -/
def jsAssign (d : Dictionary) (k : String) (v : JSValue) : Option Dictionary :=
  if k = "__private__" then none
  else if k = "length" then none
  else if k = "__proto__" then some d
  else some { d with storage := storSet d.storage k v }

/-- `set(key, value)` (lines 152-155): `this.invalidate()` runs first, so
the dirty flag is set even when the subsequent assignment throws. -/
def Dictionary.set (d : Dictionary) (k : String) (v : JSValue) : Option Dictionary :=
  jsAssign d.invalidate k v

/-- `remove(key)` (lines 140-143): `this.invalidate()` then
`delete this[key]`.  Strict-mode `delete` of the non-configurable
`__private__` throws (`none`); deleting any other key (present or not)
succeeds. -/
def Dictionary.remove (d : Dictionary) (k : String) : Option Dictionary :=
  let d1 := d.invalidate
  if k = "__private__" then none
  else some { d1 with storage := storErase d1.storage k }

/-- Value returned by `values()` (lines 127-134).  The source iterates
with `for (let key in keys)` over the ARRAY returned by `getKeys()`:
`for..in` on an array enumerates its indices as the strings "0", "1", ...,
so the method pushes `this["0"], this["1"], ...` instead of the values of
the keys. -/
def Dictionary.valuesResult (d : Dictionary) : List JSValue :=
  (List.range d.getKeysResult.length).map (fun i => jsGet d (Nat.repr i))

/-- One pass of the `entries()` iterator (lines 46-56): pairs
`[key, self[key]]` for the keys of `getKeys()`. -/
def Dictionary.entriesResult (d : Dictionary) : List (String × JSValue) :=
  d.getKeysResult.map (fun k => (k, jsGet d k))

/-- Enumerable string-keyed prototype properties seen by `for..in` when
the class is compiled to ES5 (methods assigned onto the prototype are
enumerable; `constructor` and the `length` accessor are not).  Under an
ES2015 target this list would be empty; either way every element fails
the `has` guard inside `each`, so the observable behaviour of `each` is
the same. -/
def protoEnumProps : List String :=
  ["entries", "has", "size", "invalidate", "keys", "getKeys", "values",
   "remove", "set", "get", "getDefault", "empty", "clear", "asyncEmpty",
   "forEach", "each", "asyncForEach"]

/-- The key sequence of `for (let key in this)`: own enumerable keys in
property order, then unshadowed enumerable prototype keys.  Keys deleted
during the walk are filtered out at visit time by the `has` guard of
`each`, which matches the ECMAScript guarantee that deleted properties
are not visited. -/
def Dictionary.forInKeys (d : Dictionary) : List String :=
  d.objectKeys ++ protoEnumProps.filter (fun k => !(d.objectKeys.contains k))

/-- An `each` callback: receives key and value, may mutate the dictionary
through the API, and returns a JavaScript value (checked against the
literal `false`). -/
abbrev EachCb := String → JSValue → Dictionary → JSValue × Dictionary

/-- The loop body of `each` (lines 232-239) over a key sequence: keys
failing the `has` guard are skipped; visited keys are recorded with the
value `this[key]` passed to the callback; a callback return of the
literal `false` (strict equality `===`) stops the loop. -/
def eachGo (cb : EachCb) : List String → Dictionary → Dictionary × List (String × JSValue)
  | [], d => (d, [])
  | k :: ks, d =>
    if d.has k then
      let v := jsGet d k
      let (r, d1) := cb k v d
      if r = JSValue.vbool false then (d1, [(k, v)])
      else
        let (d2, t) := eachGo cb ks d1
        (d2, (k, v) :: t)
    else eachGo cb ks d

/-- `each(cbEach)` (lines 232-239), also reachable as `forEach`: returns
the final dictionary state and the list of (key, value) invocations made. -/
def Dictionary.each (d : Dictionary) (cb : EachCb) : Dictionary × List (String × JSValue) :=
  eachGo cb d.forInKeys d

/-- The callback of `empty()` (lines 184-188): `this.remove(key)`, return
value `undefined`.  The keys it is invoked on have passed the `has`
guard, so they are never `__private__` and the strict-mode `delete` never
throws; `getD` keeps the (unreachable) throwing branch total. -/
def removeEachCb : EachCb :=
  fun k _ d => (JSValue.vundefined, (d.remove k).getD d.invalidate)

/-- `empty()` (lines 184-188): `forEach` with a callback removing each
visited key. -/
def Dictionary.emptyRun (d : Dictionary) : Dictionary :=
  (d.each removeEachCb).1

/-- Public mutation operations used to describe states reachable through
the API: `set`, `remove`, `invalidate`, and a key-reading call
(`getKeys`/`keys`/`size`/`values`/`entries`), which refreshes the cache. -/
inductive Op where
  | setOp (k : String) (v : JSValue)
  | removeOp (k : String)
  | invalidateOp
  | readKeysOp
  deriving DecidableEq, Repr

/-- Effect of one operation on the state.  A `set` or `remove` whose
strict-mode write throws has still executed `this.invalidate()`, so the
state after the exception is `d.invalidate`. -/
def applyOp (d : Dictionary) : Op → Dictionary
  | .setOp k v => (d.set k v).getD d.invalidate
  | .removeOp k => (d.remove k).getD d.invalidate
  | .invalidateOp => d.invalidate
  | .readKeysOp => d.getKeysUpd

/-- Dictionary states reachable from a constructor call by public API
operations. -/
inductive Reachable : Dictionary → Prop where
  | init (c : Bool) : Reachable (Dictionary.init c)
  | step {d : Dictionary} (op : Op) (h : Reachable d) : Reachable (applyOp d op)

/-- What one invocation of the `asyncForEach` step callback does: whether
it called the supplied `next` continuation (`cbNext`), and the value it
returned (tested with `== false` by the engine).  The dictionary mutation
performed by the callback body happens before `next` is considered. -/
structure CbAct where
  callsNext : Bool
  ret : JSValue
  deriving DecidableEq, Repr

/-- An `asyncForEach` step callback: key, live value `this[key]`, current
dictionary state; produces the mutated state and the action taken. -/
abbrev Callback := String → JSValue → Dictionary → Dictionary × CbAct

/-- The closure state of one `asyncForEach` call (lines 259-263): the
dictionary, the key snapshot `keys = this.getKeys()`, and the shared
`counter`. -/
structure AsyncState where
  d : Dictionary
  keysSnap : List String
  counter : Nat
  deriving DecidableEq, Repr

/-- Observable events of one `asyncForEach` traversal.  `tick` counts
scheduling turns: tick 0 is the synchronous calling frame (the promise
executor runs inline, and it calls `step()` directly at line 297); each
`process.nextTick(step)` runs on a strictly later tick.  `complete`
records which completion channel fired: `viaCb = true` means the supplied
`cbComplete` was invoked, `viaCb = false` means the promise was
resolved. -/
inductive Ev where
  | step (k : String) (tick : Nat)
  | complete (viaCb : Bool) (tick : Nat)
  deriving DecidableEq, Repr

/-- Scheduling turn on which an event happened. -/
def Ev.tick : Ev → Nat
  | .step _ t => t
  | .complete _ t => t

/-- Whether an event is a completion notification. -/
def Ev.isComplete : Ev → Bool
  | .step _ _ => false
  | .complete _ _ => true

/-- Completion channel of an event (`false` for step events). -/
def Ev.channel : Ev → Bool
  | .step _ _ => false
  | .complete c _ => c

/-- Key of a step event. -/
def Ev.stepKey : Ev → Option String
  | .step k _ => some k
  | .complete _ _ => none

/-- One invocation of `step` (lines 278-296) at the given tick.  Returns
the events emitted during the invocation, the updated closure state, and
whether a further `step` was scheduled via `process.nextTick`.  With
`counter < len` the key `keys[counter++]` is read, the callback is
invoked on the LIVE value `this[key]`; if the callback calls `next`
(lines 265-276) then `next` either schedules the next step or, with the
counter exhausted, fires the completion channel synchronously inside the
callback; after the callback returns, a return value loosely equal to
`false` fires the completion channel (and the `return` exits `step`
without cancelling an already scheduled task).  With `counter >= len`
the invocation just fires the completion channel.  `hasCb` records
whether a `cbComplete` argument was supplied (`cbComplete != null`). -/
def execStep (cb : Callback) (hasCb : Bool) (st : AsyncState) (tick : Nat) :
    List Ev × AsyncState × Bool :=
  if st.counter < st.keysSnap.length then
    let k := st.keysSnap.getD st.counter ""
    let v := jsGet st.d k
    let r := cb k v st.d
    let st1 : AsyncState := { st with d := r.1, counter := st.counter + 1 }
    let nextEvs : List Ev :=
      if r.2.callsNext then
        if st.counter + 1 < st.keysSnap.length then [] else [Ev.complete hasCb tick]
      else []
    let sched : Bool := r.2.callsNext && decide (st.counter + 1 < st.keysSnap.length)
    let evs : List Ev :=
      if looseEqFalse r.2.ret then
        Ev.step k tick :: (nextEvs ++ [Ev.complete hasCb tick])
      else
        Ev.step k tick :: nextEvs
    (evs, st1, sched)
  else
    ([Ev.complete hasCb tick], st, false)

/-- Driver for the step/`nextTick` loop.  `pending` says whether a `step`
task is due to run (at tick `tick`); fuel bounds the recursion.  Because a
productive step increments the shared counter, fuel
`keysSnap.length - counter + 1` is never exhausted while a task is
pending (shown by the adequacy side conditions of the lemmas below), so
the fuel-0 value coincides with the no-pending-task value. -/
def runF (cb : Callback) (hasCb : Bool) :
    Nat → AsyncState → Bool → Nat → List Ev × Dictionary
  | 0, st, _, _ => ([], st.d)
  | fuel + 1, st, pending, tick =>
    if pending then
      let r := execStep cb hasCb st tick
      let rest := runF cb hasCb fuel r.2.1 r.2.2 (tick + 1)
      (r.1 ++ rest.1, rest.2)
    else ([], st.d)

/-- `asyncForEach(cbIterator, cbComplete)` (lines 257-302): the promise
executor runs synchronously in the calling frame (tick 0), captures the
key snapshot via `getKeys()`, and calls `step()` directly, so the first
step executes at tick 0.  Returns the full event trace and the final
dictionary state. -/
def asyncForEachRun (cb : Callback) (hasCb : Bool) (d : Dictionary) :
    List Ev × Dictionary :=
  let ks := d.getKeysResult
  let d1 := d.getKeysUpd
  runF cb hasCb (ks.length + 1) ⟨d1, ks, 0⟩ true 0

/-- The callback of `asyncEmpty` (lines 205-209): `this.remove(key)` then
`next()`, returning `undefined`.  The snapshot keys all come from
`Object.keys`, which never yields `__private__`, so the strict-mode
`delete` never throws; `getD` keeps the unreachable branch total. -/
def removeAsyncCb : Callback :=
  fun k _ d => ((d.remove k).getD d.invalidate, ⟨true, JSValue.vundefined⟩)

/-- `asyncEmpty(cbComplete)` (lines 201-218): awaits an inner
`asyncForEach` (called without a completion callback, so the inner
promise resolves), then fires its own completion.  The inner trace and
final state determine everything the claims observe; the outer
notification fires iff the inner traversal completed. -/
def Dictionary.asyncEmptyRun (d : Dictionary) : List Ev × Dictionary :=
  asyncForEachRun removeAsyncCb false d

/-- Whether the completion notification of `asyncEmpty` fires: the outer
`resolve`/`cbComplete` runs exactly when the awaited inner traversal
completed. -/
def Dictionary.asyncEmptyCompletes (d : Dictionary) : Bool :=
  d.asyncEmptyRun.1.any Ev.isComplete

/-- The cooperative-protocol obligation on an `asyncForEach` step
callback: every invocation either calls `next` exactly once and returns a
value not loosely equal to `false`, or requests termination by returning
a loose-`false` value without calling `next`. -/
def WellBehaved (cb : Callback) : Prop :=
  ∀ k v d, ((cb k v d).2.callsNext = true ∧ looseEqFalse (cb k v d).2.ret = false) ∨
    ((cb k v d).2.callsNext = false ∧ looseEqFalse (cb k v d).2.ret = true)

/-- Keys actually eligible for a visit by `each`: the `for..in` sequence
filtered by the `has` guard (evaluated on the unchanged state, as is the
case for callbacks that do not mutate the dictionary). -/
def Dictionary.eligKeys (d : Dictionary) : List String :=
  d.forInKeys.filter (fun k => d.has k)

/-- Lift a pure callback (no dictionary mutation) to an `each` callback. -/
def pureCb (cb : String → JSValue → JSValue) : EachCb :=
  fun k v d => (cb k v, d)

/-- A key is clean when it does not contain the reserved substring
`"__private__"` (so the `has` filter does not reject it). -/
def cleanKey (k : String) : Bool :=
  !(hasSubstr privPat k.toList)

/-- An operation is a `set`/`remove` on a clean key: the operation class
quantified over by the cache-consistency claim. -/
def Op.mutClean : Op → Prop
  | .setOp k _ => cleanKey k = true
  | .removeOp k => cleanKey k = true
  | .invalidateOp => False
  | .readKeysOp => False

/-- The dictionary produced by a constructor call followed by a sequence
of public operations. -/
def mkDict (c : Bool) (ops : List Op) : Dictionary :=
  ops.foldl applyOp (Dictionary.init c)

/-- Visit list of `each` with a pure (non-mutating) callback over an
already-filtered eligible-key list: every key in the list is visited, and
a strict-`false` return stops the loop right after its visit. -/
def stopTrace (cb : String → JSValue → JSValue) (d : Dictionary) :
    List String → List (String × JSValue)
  | [] => []
  | k :: tl =>
    (k, jsGet d k) ::
      (if cb k (jsGet d k) = JSValue.vbool false then [] else stopTrace cb d tl)

/-- Keys of the step events of a trace. -/
def asyncStepKeys (evs : List Ev) : List String :=
  evs.filterMap Ev.stepKey

/-- Completion events of a trace. -/
def completions (evs : List Ev) : List Ev :=
  evs.filter Ev.isComplete

/-- Step callback that immediately calls `next` and returns `undefined`
(the usage pattern of the documentation and of Scenario C). -/
def advanceCb : Callback :=
  fun _ _ d => (d, ⟨true, JSValue.vundefined⟩)

/-- Step callback that returns a fixed value without calling `next`. -/
def constRetCb (r : JSValue) : Callback :=
  fun _ _ d => (d, ⟨false, r⟩)

theorem storGet_isSome_iff (l : List (String × JSValue)) (k : String) :
    (storGet l k).isSome = true ↔ k ∈ l.map Prod.fst := by
  induction l with
  | nil => simp [storGet]
  | cons p tl ih =>
    obtain ⟨a, b⟩ := p
    by_cases h : a = k
    · subst h; simp [storGet]
    · have hne : k ≠ a := fun hk => h hk.symm
      simp [storGet, h, ih, hne]

theorem storGet_eq_none_iff (l : List (String × JSValue)) (k : String) :
    storGet l k = none ↔ k ∉ l.map Prod.fst := by
  rw [← storGet_isSome_iff]
  cases storGet l k <;> simp

theorem storGet_storSet_self (l : List (String × JSValue)) (k : String) (v : JSValue) :
    storGet (storSet l k v) k = some v := by
  induction l with
  | nil => simp [storSet, storGet]
  | cons p tl ih =>
    obtain ⟨a, b⟩ := p
    by_cases h : a = k <;> simp [storSet, storGet, h, ih]

theorem mem_storSet_map_fst (l : List (String × JSValue)) (k a : String) (v : JSValue) :
    a ∈ (storSet l k v).map Prod.fst ↔ a ∈ l.map Prod.fst ∨ a = k := by
  induction l with
  | nil => simp [storSet]
  | cons p tl ih =>
    obtain ⟨b, w⟩ := p
    by_cases h : b = k <;> simp [storSet, h, ih] <;> tauto

theorem storErase_eq_filter (l : List (String × JSValue)) (k : String) :
    storErase l k = l.filter (fun p => p.1 != k) := by
  induction l with
  | nil => simp [storErase]
  | cons p tl ih =>
    obtain ⟨a, b⟩ := p
    by_cases h : a = k <;> simp [storErase, h, ih]

theorem mem_storErase_map_fst (l : List (String × JSValue)) (k a : String) :
    a ∈ (storErase l k).map Prod.fst ↔ a ∈ l.map Prod.fst ∧ a ≠ k := by
  rw [storErase_eq_filter]
  simp only [List.mem_map, List.mem_filter]
  constructor
  · rintro ⟨p, ⟨hp, hne⟩, rfl⟩
    exact ⟨⟨p, hp, rfl⟩, by simpa using hne⟩
  · rintro ⟨⟨p, hp, rfl⟩, hne⟩
    exact ⟨p, ⟨hp, by simpa using hne⟩, rfl⟩

theorem hasSubstr_priv_self : hasSubstr privPat "__private__".toList = true := by decide

theorem cleanKey_private : cleanKey "__private__" = false := by decide

theorem has_private (d : Dictionary) : d.has "__private__" = false := by
  unfold Dictionary.has
  rw [if_pos (by decide)]

theorem has_eq_clean_and (d : Dictionary) (k : String) :
    d.has k = (cleanKey k && d.hasOwnProp k) := by
  by_cases h : hasSubstr privPat k.toList <;> simp [Dictionary.has, cleanKey, h]

theorem ne_private_of_clean {k : String} (h : cleanKey k = true) : k ≠ "__private__" := by
  intro hk
  rw [hk, cleanKey_private] at h
  exact Bool.false_ne_true h

theorem has_iff_mem (d : Dictionary) (k : String) (hclean : cleanKey k = true) :
    d.has k = true ↔ k ∈ d.objectKeys := by
  rw [has_eq_clean_and, hclean]
  simp [Dictionary.hasOwnProp, ne_private_of_clean hclean,
    storGet_isSome_iff, Dictionary.objectKeys]

theorem getKeysResult_of_invalid (d : Dictionary) (h : d.invalidateKeys = true) :
    d.getKeysResult = d.objectKeys := by
  simp [Dictionary.getKeysResult, h]

theorem getKeysUpd_objectKeys (d : Dictionary) : d.getKeysUpd.objectKeys = d.objectKeys := by
  unfold Dictionary.getKeysUpd
  split <;> [rfl; skip]
  split <;> rfl

theorem getKeysResult_upd (d : Dictionary) :
    d.getKeysUpd.getKeysResult = d.getKeysResult := by
  by_cases hc : d.cacheKeys
  · by_cases hi : (d.invalidateKeys || d.keysCache.isNone) = true
    · simp [Dictionary.getKeysUpd, Dictionary.getKeysResult, hc, hi, Dictionary.objectKeys]
    · simp [Dictionary.getKeysUpd, Dictionary.getKeysResult, hc, hi]
  · simp [Dictionary.getKeysUpd, hc]

theorem applyOp_mut_invalid (d : Dictionary) (op : Op) (h : Op.mutClean op) :
    (applyOp d op).invalidateKeys = true := by
  cases op with
  | setOp k v =>
    simp only [applyOp, Dictionary.set, jsAssign, Dictionary.invalidate]
    split_ifs <;> rfl
  | removeOp k =>
    simp only [applyOp, Dictionary.remove, Dictionary.invalidate]
    split_ifs <;> rfl
  | invalidateOp => cases h
  | readKeysOp => cases h

theorem foldl_mut_invalid : ∀ (ops : List Op) (d : Dictionary),
    (∀ op ∈ ops, Op.mutClean op) → d.invalidateKeys = true →
    (ops.foldl applyOp d).invalidateKeys = true := by
  intro ops
  induction ops with
  | nil => intro d _ hd; simpa using hd
  | cons op tl ih =>
    intro d hops hd
    simp only [List.foldl_cons]
    exact ih _ (fun o ho => hops o (List.mem_cons_of_mem _ ho))
      (applyOp_mut_invalid d op (hops op (List.mem_cons_self _ _)))

theorem mem_applyOp_set (d : Dictionary) (k0 : String) (v : JSValue) (k : String)
    (hk : k ∈ (applyOp d (Op.setOp k0 v)).objectKeys) :
    k ∈ d.objectKeys ∨ k = k0 := by
  by_cases h1 : k0 = "__private__"
  · simp only [applyOp, Dictionary.set, jsAssign, Dictionary.invalidate, h1,
      if_true, Option.getD, Dictionary.objectKeys] at hk
    exact Or.inl hk
  · by_cases h2 : k0 = "length"
    · simp only [applyOp, Dictionary.set, jsAssign, Dictionary.invalidate, h1, h2,
        if_false, if_true, Option.getD, Dictionary.objectKeys] at hk
      exact Or.inl hk
    · by_cases h3 : k0 = "__proto__"
      · simp only [applyOp, Dictionary.set, jsAssign, Dictionary.invalidate, h1, h2, h3,
          if_false, if_true, Option.getD, Dictionary.objectKeys] at hk
        exact Or.inl hk
      · simp only [applyOp, Dictionary.set, jsAssign, Dictionary.invalidate, h1, h2, h3,
          if_false, Option.getD, Dictionary.objectKeys] at hk
        exact (mem_storSet_map_fst d.storage k0 k v).mp hk

theorem mem_applyOp_remove (d : Dictionary) (k0 : String) (k : String)
    (hk : k ∈ (applyOp d (Op.removeOp k0)).objectKeys) :
    k ∈ d.objectKeys := by
  by_cases h1 : k0 = "__private__"
  · simp only [applyOp, Dictionary.remove, Dictionary.invalidate, h1,
      if_true, Option.getD, Dictionary.objectKeys] at hk
    exact hk
  · simp only [applyOp, Dictionary.remove, Dictionary.invalidate, h1,
      if_false, Option.getD, Dictionary.objectKeys] at hk
    exact ((mem_storErase_map_fst d.storage k0 k).mp hk).1

theorem foldl_mut_clean : ∀ (ops : List Op) (d : Dictionary),
    (∀ op ∈ ops, Op.mutClean op) → (∀ k ∈ d.objectKeys, cleanKey k = true) →
    ∀ k ∈ (ops.foldl applyOp d).objectKeys, cleanKey k = true := by
  intro ops
  induction ops with
  | nil => intro d _ hd; simpa using hd
  | cons op tl ih =>
    intro d hops hd
    simp only [List.foldl_cons]
    refine ih _ (fun o ho => hops o (List.mem_cons_of_mem _ ho)) ?_
    have hop := hops op (List.mem_cons_self _ _)
    cases op with
    | setOp k0 v =>
      intro k hk
      rcases mem_applyOp_set d k0 v k hk with h | h
      · exact hd k h
      · exact h ▸ hop
    | removeOp k0 =>
      intro k hk
      exact hd k (mem_applyOp_remove d k0 k hk)
    | invalidateOp => cases hop
    | readKeysOp => cases hop

theorem mkDict_invalid (c : Bool) (ops : List Op)
    (hops : ∀ op ∈ ops, Op.mutClean op) : (mkDict c ops).invalidateKeys = true :=
  foldl_mut_invalid ops _ hops rfl

theorem mkDict_clean (c : Bool) (ops : List Op)
    (hops : ∀ op ∈ ops, Op.mutClean op) :
    ∀ k ∈ (mkDict c ops).objectKeys, cleanKey k = true :=
  foldl_mut_clean ops _ hops (by simp [Dictionary.init, Dictionary.objectKeys])

/-- Claim C1, as stated, fails on the code: after `set("a__private__", 1)`
the key `"a__private__"` is returned by `getKeys()` (it is an ordinary
enumerable own property), yet `has("a__private__")` is `false`, because
`has` rejects every key CONTAINING the substring `"__private__"` while
`getKeys()` only hides the exact non-enumerable `__private__` field. -/
theorem c1_counterexample :
    ("a__private__" ∈ (mkDict false [Op.setOp "a__private__" (JSValue.vnum 1)]).getKeysResult) ∧
    (mkDict false [Op.setOp "a__private__" (JSValue.vnum 1)]).has "a__private__" = false := by
  decide

/-- Claim C1 (amended): for every sequence of `set`/`remove` operations in
which no key contains the substring `"__private__"` (caching enabled or
disabled), `getKeys()` returns exactly the set of keys for which `has` is
true, and the order is stable: an immediately repeated `getKeys()` call
returns the same sequence. -/
theorem c1_amended (c : Bool) (ops : List Op) (k : String)
    (hops : ∀ op ∈ ops, Op.mutClean op) :
    (k ∈ (mkDict c ops).getKeysResult ↔ (mkDict c ops).has k = true) ∧
    (mkDict c ops).getKeysUpd.getKeysResult = (mkDict c ops).getKeysResult := by
  have hres : (mkDict c ops).getKeysResult = (mkDict c ops).objectKeys :=
    getKeysResult_of_invalid _ (mkDict_invalid c ops hops)
  refine ⟨?_, getKeysResult_upd _⟩
  rw [hres]
  by_cases hc : cleanKey k = true
  · exact (has_iff_mem _ _ hc).symm
  · have hc2 : cleanKey k = false := Bool.not_eq_true _ ▸ (Bool.eq_false_iff.mpr (fun h => hc h))
    constructor
    · intro hk
      exact absurd (mkDict_clean c ops hops k hk) hc
    · intro hk
      rw [has_eq_clean_and, hc2] at hk
      simp at hk

/-- Witness for the amended claim C1 at a concrete input. -/
theorem c1_amended_witness :
    ("a" ∈ (mkDict false [Op.setOp "a" (JSValue.vnum 1)]).getKeysResult ↔
      (mkDict false [Op.setOp "a" (JSValue.vnum 1)]).has "a" = true) ∧
    (mkDict false [Op.setOp "a" (JSValue.vnum 1)]).getKeysUpd.getKeysResult =
      (mkDict false [Op.setOp "a" (JSValue.vnum 1)]).getKeysResult :=
  c1_amended false [Op.setOp "a" (JSValue.vnum 1)] "a" (by
    intro op hop
    simp only [List.mem_singleton] at hop
    subst hop
    exact (by decide : cleanKey "a" = true))

/-- Claim C4, as stated, fails on the code: `"__private__"` was never set
on a fresh dictionary (its storage lookup is `none`), yet
`get("__private__")` returns the internal `DictionaryInner` record — not
the absent sentinel — because `get` is a raw property read and the field
is an own (non-enumerable) property. -/
theorem c4_counterexample :
    (Dictionary.init false).get "__private__" = JSValue.vobj "DictionaryInner" ∧
    storGet (Dictionary.init false).storage "__private__" = none ∧
    JSValue.vobj "DictionaryInner" ≠ JSValue.vundefined := by
  decide

/-- Claim C4 (amended): for every key that was never set and that is
neither the reserved field `__private__` nor a property of the prototype
chain (a `Dictionary` method name, `length`, `__proto__`, or an
`Object.prototype` member), `get` returns `undefined` and does not raise;
and `get` returns the stored value for every stored key other than
`__private__`. -/
theorem c4_amended (d : Dictionary) (k1 k2 : String) (v : JSValue)
    (ha : storGet d.storage k1 = none) (hb : k1 ≠ "__private__")
    (hc : k1 ≠ "length") (hd : k1 ≠ "__proto__")
    (he : protoProps.contains k1 = false) (hg : k2 ≠ "__private__") :
    d.get k1 = JSValue.vundefined ∧
    (storGet d.storage k2 = some v → d.get k2 = v) := by
  constructor
  · have hm : k1 ∉ protoProps := by simpa using he
    simp [Dictionary.get, jsGet, ha, hb, hc, hd, hm]
  · intro hk
    simp [Dictionary.get, jsGet, hg, hk]

/-- Witness for the amended claim C4 at a concrete input. -/
theorem c4_amended_witness :
    (mkDict false [Op.setOp "a" (JSValue.vnum 0)]).get "b" = JSValue.vundefined ∧
    (storGet (mkDict false [Op.setOp "a" (JSValue.vnum 0)]).storage "a" = some (JSValue.vnum 0) →
      (mkDict false [Op.setOp "a" (JSValue.vnum 0)]).get "a" = JSValue.vnum 0) :=
  c4_amended (mkDict false [Op.setOp "a" (JSValue.vnum 0)]) "b" "a" (JSValue.vnum 0)
    (by decide) (by decide) (by decide) (by decide) (by decide) (by decide)

/-- Claim C5, as stated, fails on the code: for the key `"__private__"`
the strict-mode assignment inside `set` throws a `TypeError` (the
property is non-writable), so `set` followed by `get` cannot return the
stored value — `get` keeps returning the internal record. -/
theorem c5_counterexample :
    (Dictionary.init false).set "__private__" (JSValue.vnum 1) = none ∧
    (Dictionary.init false).get "__private__" ≠ JSValue.vnum 1 := by
  decide

/-- Claim C5 (amended): for every key other than the reserved names
`__private__`, `length` and `__proto__` (whose property slots are exotic:
non-writable, setter-less accessor, and prototype setter respectively),
and every value — including the falsy values `0`, `""` and `false`,
which remain distinct from the absent sentinel `undefined` —
`set(k, v)` succeeds and an immediate `get(k)` returns `v`. -/
theorem c5_amended (d : Dictionary) (k : String) (v : JSValue)
    (h1 : k ≠ "__private__") (h2 : k ≠ "length") (h3 : k ≠ "__proto__") :
    (∃ d1, d.set k v = some d1 ∧ d1.get k = v) ∧
    (JSValue.vnum 0 ≠ JSValue.vundefined ∧ JSValue.vstr "" ≠ JSValue.vundefined ∧
     JSValue.vbool false ≠ JSValue.vundefined) := by
  refine ⟨⟨{ d.invalidate with storage := storSet d.invalidate.storage k v }, ?_, ?_⟩, by decide⟩
  · simp [Dictionary.set, jsAssign, h1, h2, h3]
  · simp [Dictionary.get, jsGet, h1, storGet_storSet_self]

/-- Witness for the amended claim C5 at a concrete input (a falsy value). -/
theorem c5_amended_witness :
    (∃ d1, (Dictionary.init false).set "a" (JSValue.vnum 0) = some d1 ∧
      d1.get "a" = JSValue.vnum 0) ∧
    (JSValue.vnum 0 ≠ JSValue.vundefined ∧ JSValue.vstr "" ≠ JSValue.vundefined ∧
     JSValue.vbool false ≠ JSValue.vundefined) :=
  c5_amended (Dictionary.init false) "a" (JSValue.vnum 0)
    (by decide) (by decide) (by decide)

/-- Claim C2: the code is buggy.  `values()` iterates the key ARRAY with
`for (let key in keys)`, which enumerates the array indices "0", "1", ...
as strings, so it pushes `this["0"]`, `this["1"]`, ... instead of the
values of the keys.  On a dictionary with the single entry
`("a", 1)`, `getKeys()` is `["a"]` and the stored value is `1`, but
`values()` returns `[undefined]` (the read of the absent key "0") — not
`[1]` as the claim requires.  (The correct `for..of` form is used by the
adjacent iterator at lines 29-34, showing the `in` is a slip.) -/
theorem c2_bug_eval :
    (mkDict false [Op.setOp "a" (JSValue.vnum 1)]).valuesResult = [JSValue.vundefined] ∧
    (mkDict false [Op.setOp "a" (JSValue.vnum 1)]).getKeysResult = ["a"] ∧
    jsGet (mkDict false [Op.setOp "a" (JSValue.vnum 1)]) "a" = JSValue.vnum 1 := by
  decide

theorem runF_not_pending (cb : Callback) (hasCb : Bool) (fuel : Nat) (st : AsyncState)
    (tick : Nat) : runF cb hasCb fuel st false tick = ([], st.d) := by
  cases fuel <;> rfl


theorem execStep_snd (cb : Callback) (hasCb : Bool) (st : AsyncState) (tick : Nat) :
    (execStep cb hasCb st tick).2 =
      if st.counter < st.keysSnap.length then
        ({ st with
            d := (cb (st.keysSnap.getD st.counter "")
              (jsGet st.d (st.keysSnap.getD st.counter "")) st.d).1,
            counter := st.counter + 1 },
          (cb (st.keysSnap.getD st.counter "")
            (jsGet st.d (st.keysSnap.getD st.counter "")) st.d).2.callsNext &&
            decide (st.counter + 1 < st.keysSnap.length))
      else (st, false) := by
  unfold execStep
  by_cases h : st.counter < st.keysSnap.length
  · rw [if_pos h, if_pos h]
  · rw [if_neg h, if_neg h]

theorem execStep_keysSnap (cb : Callback) (hasCb : Bool) (st : AsyncState) (tick : Nat) :
    (execStep cb hasCb st tick).2.1.keysSnap = st.keysSnap := by
  rw [execStep_snd]
  split_ifs <;> rfl

theorem execStep_sched_lt (cb : Callback) (hasCb : Bool) (st : AsyncState) (tick : Nat)
    (h : (execStep cb hasCb st tick).2.2 = true) :
    st.counter < st.keysSnap.length ∧
    (execStep cb hasCb st tick).2.1.counter = st.counter + 1 := by
  rw [execStep_snd] at h ⊢
  by_cases hlt : st.counter < st.keysSnap.length
  · rw [if_pos hlt] at h ⊢
    exact ⟨hlt, rfl⟩
  · rw [if_neg hlt] at h
    exact absurd h (by simp)

theorem execStep_counter_ge (cb : Callback) (hasCb : Bool) (st : AsyncState) (tick : Nat) :
    st.counter ≤ (execStep cb hasCb st tick).2.1.counter := by
  rw [execStep_snd]
  split_ifs <;> simp

theorem execStep_evs_of_ge (cb : Callback) (hasCb : Bool) (st : AsyncState) (tick : Nat)
    (h : ¬ st.counter < st.keysSnap.length) :
    (execStep cb hasCb st tick).1 = [Ev.complete hasCb tick] ∧
    (execStep cb hasCb st tick).2 = (st, false) := by
  unfold execStep
  rw [if_neg h]
  exact ⟨rfl, rfl⟩

theorem execStep_ev_sub (cb : Callback) (hasCb : Bool) (st : AsyncState) (tick : Nat) :
    ∀ e ∈ (execStep cb hasCb st tick).1,
      e = Ev.step (st.keysSnap.getD st.counter "") tick ∨ e = Ev.complete hasCb tick := by
  intro e he
  simp only [execStep] at he
  split_ifs at he <;> simp_all

theorem execStep_ev_shape (cb : Callback) (hasCb : Bool) (st : AsyncState) (tick : Nat) :
    ∀ e ∈ (execStep cb hasCb st tick).1,
      (∃ k, k ∈ st.keysSnap ∧ e = Ev.step k tick) ∨ e = Ev.complete hasCb tick := by
  intro e he
  by_cases hlt : st.counter < st.keysSnap.length
  · have hmem : st.keysSnap.getD st.counter "" ∈ st.keysSnap := by
      rw [List.getD_eq_getElem st.keysSnap "" hlt]
      exact List.getElem_mem hlt
    rcases execStep_ev_sub cb hasCb st tick e he with rfl | rfl
    · exact Or.inl ⟨_, hmem, rfl⟩
    · exact Or.inr rfl
  · rw [(execStep_evs_of_ge cb hasCb st tick hlt).1] at he
    simp only [List.mem_singleton] at he
    exact Or.inr he

theorem completions_append (a b : List Ev) :
    completions (a ++ b) = completions a ++ completions b := by
  simp [completions]

theorem execStep_ne_nil (cb : Callback) (hasCb : Bool) (st : AsyncState) (tick : Nat) :
    (execStep cb hasCb st tick).1 ≠ [] := by
  simp only [execStep]
  split_ifs <;> simp

theorem execStep_tick (cb : Callback) (hasCb : Bool) (st : AsyncState) (tick : Nat) :
    ∀ e ∈ (execStep cb hasCb st tick).1, Ev.tick e = tick := by
  intro e he
  rcases execStep_ev_sub cb hasCb st tick e he with rfl | rfl <;> rfl

theorem execStep_fst_of_lt (cb : Callback) (hasCb : Bool) (st : AsyncState) (tick : Nat)
    (hlt : st.counter < st.keysSnap.length) :
    (execStep cb hasCb st tick).1 =
      (if looseEqFalse (cb (st.keysSnap.getD st.counter "")
          (jsGet st.d (st.keysSnap.getD st.counter "")) st.d).2.ret then
        Ev.step (st.keysSnap.getD st.counter "") tick ::
          ((if (cb (st.keysSnap.getD st.counter "")
              (jsGet st.d (st.keysSnap.getD st.counter "")) st.d).2.callsNext then
              if st.counter + 1 < st.keysSnap.length then [] else [Ev.complete hasCb tick]
            else []) ++ [Ev.complete hasCb tick])
      else
        Ev.step (st.keysSnap.getD st.counter "") tick ::
          (if (cb (st.keysSnap.getD st.counter "")
              (jsGet st.d (st.keysSnap.getD st.counter "")) st.d).2.callsNext then
            if st.counter + 1 < st.keysSnap.length then [] else [Ev.complete hasCb tick]
          else [])) := by
  unfold execStep
  rw [if_pos hlt]

theorem execStep_sched_of_lt (cb : Callback) (hasCb : Bool) (st : AsyncState) (tick : Nat)
    (hlt : st.counter < st.keysSnap.length) :
    (execStep cb hasCb st tick).2.2 =
      ((cb (st.keysSnap.getD st.counter "")
        (jsGet st.d (st.keysSnap.getD st.counter "")) st.d).2.callsNext &&
        decide (st.counter + 1 < st.keysSnap.length)) := by
  rw [execStep_snd, if_pos hlt]

theorem execStep_count_wb (cb : Callback) (hwb : WellBehaved cb) (hasCb : Bool)
    (st : AsyncState) (tick : Nat) :
    (completions (execStep cb hasCb st tick).1).length +
      (if (execStep cb hasCb st tick).2.2 = true then 1 else 0) = 1 := by
  by_cases hlt : st.counter < st.keysSnap.length
  · rw [execStep_fst_of_lt cb hasCb st tick hlt, execStep_sched_of_lt cb hasCb st tick hlt]
    rcases hwb (st.keysSnap.getD st.counter "")
      (jsGet st.d (st.keysSnap.getD st.counter "")) st.d with ⟨hcn, hlf⟩ | ⟨hcn, hlf⟩
    · by_cases h2 : st.counter + 1 < st.keysSnap.length
      · simp only [hcn, hlf, h2, if_true, if_false]
        simp [completions, Ev.isComplete]
      · simp only [hcn, hlf, h2, if_true, if_false]
        simp [completions, Ev.isComplete, h2]
    · simp only [hcn, hlf, if_true, if_false]
      simp [completions, Ev.isComplete]
  · obtain ⟨h1, h2⟩ := execStep_evs_of_ge cb hasCb st tick hlt
    rw [h1, h2]
    simp [completions, Ev.isComplete]

theorem runF_count_wb (cb : Callback) (hwb : WellBehaved cb) (hasCb : Bool) :
    ∀ (fuel : Nat) (st : AsyncState) (tick : Nat),
      st.keysSnap.length - st.counter + 1 ≤ fuel →
      (completions (runF cb hasCb fuel st true tick).1).length = 1 := by
  intro fuel
  induction fuel with
  | zero => intro st tick h; omega
  | succ f ih =>
    intro st tick h
    have hdef : (runF cb hasCb (f + 1) st true tick).1 =
        (execStep cb hasCb st tick).1 ++
        (runF cb hasCb f (execStep cb hasCb st tick).2.1
          (execStep cb hasCb st tick).2.2 (tick + 1)).1 := rfl
    rw [hdef, completions_append, List.length_append]
    have hexec := execStep_count_wb cb hwb hasCb st tick
    by_cases hs : (execStep cb hasCb st tick).2.2 = true
    · obtain ⟨hlt, hctr⟩ := execStep_sched_lt cb hasCb st tick hs
      have hsnap := execStep_keysSnap cb hasCb st tick
      have hrest : (completions (runF cb hasCb f (execStep cb hasCb st tick).2.1
          (execStep cb hasCb st tick).2.2 (tick + 1)).1).length = 1 := by
        rw [hs]
        exact ih _ (tick + 1) (by rw [hsnap, hctr]; omega)
      rw [if_pos hs] at hexec
      omega
    · have hs2 : (execStep cb hasCb st tick).2.2 = false := by simpa using hs
      rw [hs2, runF_not_pending]
      rw [if_neg hs] at hexec
      simpa [completions] using hexec

theorem runF_shape (cb : Callback) (hasCb : Bool) :
    ∀ (fuel : Nat) (st : AsyncState) (p : Bool) (tick : Nat) (e : Ev),
      e ∈ (runF cb hasCb fuel st p tick).1 →
      tick ≤ Ev.tick e ∧
        ((∃ k, k ∈ st.keysSnap ∧ e = Ev.step k (Ev.tick e)) ∨
          e = Ev.complete hasCb (Ev.tick e)) := by
  intro fuel
  induction fuel with
  | zero => intro st p tick e he; simp [runF] at he
  | succ f ih =>
    intro st p tick e he
    by_cases hp : p = true
    · subst hp
      have hdef : (runF cb hasCb (f + 1) st true tick).1 =
          (execStep cb hasCb st tick).1 ++
          (runF cb hasCb f (execStep cb hasCb st tick).2.1
            (execStep cb hasCb st tick).2.2 (tick + 1)).1 := rfl
      rw [hdef, List.mem_append] at he
      rcases he with he | he
      · have ht := execStep_tick cb hasCb st tick e he
        rcases execStep_ev_shape cb hasCb st tick e he with ⟨k, hk, rfl⟩ | rfl
        · exact ⟨le_of_eq ht.symm, Or.inl ⟨k, hk, rfl⟩⟩
        · exact ⟨le_of_eq ht.symm, Or.inr rfl⟩
      · have hrec := ih _ _ _ _ he
        refine ⟨le_trans (by omega) hrec.1, ?_⟩
        rcases hrec.2 with ⟨k, hk, heq⟩ | heq
        · rw [execStep_keysSnap] at hk
          exact Or.inl ⟨k, hk, heq⟩
        · exact Or.inr heq
    · have hp2 : p = false := by simpa using hp
      subst hp2
      rw [runF_not_pending] at he
      simp at he

/-- Claim C3, as stated, fails on the code: the promise executor calls
`step()` directly (line 297), not through `process.nextTick`, so on an
empty container the completion notification fires at tick 0 — i.e.
synchronously, inside the very call frame that invoked `asyncForEach`. -/
theorem c3_counterexample :
    (asyncForEachRun advanceCb false (Dictionary.init false)).1 = [Ev.complete false 0] ∧
    Ev.tick (Ev.complete false 0) = 0 := by
  constructor
  · decide
  · rfl

/-- Claim C3 (amended): the first `step` invocation runs synchronously in
the calling frame (tick 0) — so its events, including a completion fired
for an empty container, a loose-`false` return, or a final `next` call on
a single-element traversal, are synchronous — and every event after the
first `step` invocation is deferred by at least one scheduling tick. -/
theorem c3_amended (cb : Callback) (hasCb : Bool) (d : Dictionary) :
    ∃ s r, (asyncForEachRun cb hasCb d).1 = s ++ r ∧ s ≠ [] ∧
      (∀ e ∈ s, Ev.tick e = 0) ∧ (∀ e ∈ r, 1 ≤ Ev.tick e) ∧
      (d.getKeysResult = [] → s = [Ev.complete hasCb 0]) := by
  refine ⟨(execStep cb hasCb ⟨d.getKeysUpd, d.getKeysResult, 0⟩ 0).1,
    (runF cb hasCb d.getKeysResult.length
      (execStep cb hasCb ⟨d.getKeysUpd, d.getKeysResult, 0⟩ 0).2.1
      (execStep cb hasCb ⟨d.getKeysUpd, d.getKeysResult, 0⟩ 0).2.2 1).1,
    rfl, execStep_ne_nil cb hasCb _ 0, execStep_tick cb hasCb _ 0, ?_, ?_⟩
  · intro e he
    exact (runF_shape cb hasCb _ _ _ _ e he).1
  · intro hks
    have hge : ¬ (⟨d.getKeysUpd, d.getKeysResult, 0⟩ : AsyncState).counter <
        (⟨d.getKeysUpd, d.getKeysResult, 0⟩ : AsyncState).keysSnap.length := by
      simp [hks]
    exact (execStep_evs_of_ge cb hasCb _ 0 hge).1

/-- Claim C9: with a completion callback supplied (`cbComplete != null`),
every completion site of `asyncForEach` invokes the callback instead of
resolving the promise, so every completion event uses the callback
channel and the promise is never resolved; and for a step callback
respecting the cooperative protocol (each invocation either advances
exactly once with a non-loose-`false` return, or terminates by a
loose-`false` return), exactly one completion notification fires per
traversal. -/
theorem c9_confirmed (d : Dictionary) (cb : Callback) (hwb : WellBehaved cb) (e : Ev) :
    (e ∈ (asyncForEachRun cb true d).1 → Ev.isComplete e = true → Ev.channel e = true) ∧
    (completions (asyncForEachRun cb true d).1).length = 1 := by
  constructor
  · intro he hc
    rcases (runF_shape cb true _ _ _ _ e he).2 with ⟨k, _, heq⟩ | heq
    · rw [heq] at hc
      simp [Ev.isComplete] at hc
    · rw [heq]
      rfl
  · exact runF_count_wb cb hwb true (d.getKeysResult.length + 1)
      ⟨d.getKeysUpd, d.getKeysResult, 0⟩ 0
      (by show d.getKeysResult.length - 0 + 1 ≤ d.getKeysResult.length + 1; omega)

/-- Witness for claim C9 at a concrete input: a one-entry dictionary, the
immediately-advancing step callback. -/
theorem c9_confirmed_witness :
    Ev.channel (Ev.complete true 0) = true ∧
    (completions (asyncForEachRun advanceCb true
      (mkDict false [Op.setOp "a" (JSValue.vnum 1)])).1).length = 1 :=
  ⟨(c9_confirmed (mkDict false [Op.setOp "a" (JSValue.vnum 1)]) advanceCb
      (fun k v dd => Or.inl ⟨rfl, rfl⟩) (Ev.complete true 0)).1 (by decide) (by decide),
   (c9_confirmed (mkDict false [Op.setOp "a" (JSValue.vnum 1)]) advanceCb
      (fun k v dd => Or.inl ⟨rfl, rfl⟩) (Ev.complete true 0)).2⟩

theorem eachGo_pure (cb : String → JSValue → JSValue) :
    ∀ (ks : List String) (d : Dictionary),
      eachGo (pureCb cb) ks d = (d, stopTrace cb d (ks.filter (fun k => d.has k))) := by
  intro ks
  induction ks with
  | nil => intro d; simp [eachGo, stopTrace]
  | cons k tl ih =>
    intro d
    by_cases h : d.has k = true
    · by_cases hr : cb k (jsGet d k) = JSValue.vbool false
      · simp [eachGo, h, pureCb, hr, stopTrace, List.filter_cons]
      · simp [eachGo, h, pureCb, hr, stopTrace, ih d, List.filter_cons]
    · have h2 : d.has k = false := by simpa using h
      simp [eachGo, h2, List.filter_cons, ih d]

theorem stopTrace_length_of_first_false (cb : String → JSValue → JSValue) (d : Dictionary) :
    ∀ (el : List String) (N : Nat), 0 < N → N ≤ el.length →
      cb (el.getD (N - 1) "") (jsGet d (el.getD (N - 1) "")) = JSValue.vbool false →
      (∀ i, i + 1 < N → cb (el.getD i "") (jsGet d (el.getD i "")) ≠ JSValue.vbool false) →
      (stopTrace cb d el).length = N := by
  intro el
  induction el with
  | nil => intro N h1 h2 _ _; simp at h2; omega
  | cons k tl ih =>
    intro N h1 h2 h3 h4
    by_cases hr : cb k (jsGet d k) = JSValue.vbool false
    · have hN1 : N = 1 := by
        by_contra hN
        exact h4 0 (by omega) (by simpa using hr)
      subst hN1
      simp [stopTrace, hr]
    · have hN2 : 2 ≤ N := by
        rcases Nat.lt_or_ge N 2 with h | h
        · interval_cases N
          · exact absurd (by simpa using h3) hr
        · exact h
      have he : N - 1 = (N - 2) + 1 := by omega
      rw [he, List.getD_cons_succ] at h3
      have hlen : N - 1 ≤ tl.length := by simp at h2; omega
      have h4b : ∀ i, i + 1 < N - 1 →
          cb (tl.getD i "") (jsGet d (tl.getD i "")) ≠ JSValue.vbool false := by
        intro i hi
        have := h4 (i + 1) (by omega)
        rwa [List.getD_cons_succ] at this
      have h3b : cb (tl.getD ((N - 1) - 1) "") (jsGet d (tl.getD ((N - 1) - 1) "")) =
          JSValue.vbool false := by
        have hee : (N - 1) - 1 = N - 2 := by omega
        rw [hee]
        exact h3
      have := ih (N - 1) (by omega) hlen h3b h4b
      simp [stopTrace, hr, this]
      omega

theorem stopTrace_all_of_no_false (cb : String → JSValue → JSValue) (d : Dictionary) :
    ∀ (el : List String), (∀ k ∈ el, cb k (jsGet d k) ≠ JSValue.vbool false) →
      stopTrace cb d el = el.map (fun k => (k, jsGet d k)) := by
  intro el
  induction el with
  | nil => intro _; simp [stopTrace]
  | cons k tl ih =>
    intro h
    have hk := h k (List.mem_cons_self _ _)
    simp [stopTrace, hk, ih (fun x hx => h x (List.mem_cons_of_mem _ hx))]

/-- Claim C8: in `each` (alias `forEach`) with a non-mutating callback,
if the callback returns the literal `false` on the Nth eligible key and
not before, exactly N invocations happen in total, and when no return
value is the literal `false` (any other value, including `undefined`,
continues), every eligible key is visited. -/
theorem c8_confirmed (d : Dictionary) (cb : String → JSValue → JSValue) (N : Nat) :
    ((0 < N) → (N ≤ d.eligKeys.length) →
      (cb (d.eligKeys.getD (N - 1) "") (jsGet d (d.eligKeys.getD (N - 1) "")) =
        JSValue.vbool false) →
      (∀ i, i + 1 < N → cb (d.eligKeys.getD i "") (jsGet d (d.eligKeys.getD i "")) ≠
        JSValue.vbool false) →
      (d.each (pureCb cb)).2.length = N) ∧
    ((∀ k ∈ d.eligKeys, cb k (jsGet d k) ≠ JSValue.vbool false) →
      (d.each (pureCb cb)).2.length = d.eligKeys.length) := by
  have heach : (d.each (pureCb cb)).2 = stopTrace cb d d.eligKeys := by
    rw [Dictionary.each, eachGo_pure]
    rfl
  constructor
  · intro h1 h2 h3 h4
    rw [heach]
    exact stopTrace_length_of_first_false cb d d.eligKeys N h1 h2 h3 h4
  · intro h
    rw [heach, stopTrace_all_of_no_false cb d d.eligKeys h]
    simp

/-- Witness for claim C8 at a concrete input: three entries, a callback
returning literal `false` on the second key gives exactly 2 invocations;
a callback always returning `undefined` visits all three keys. -/
theorem c8_confirmed_witness :
    ((mkDict false [Op.setOp "a" (JSValue.vnum 1), Op.setOp "b" (JSValue.vnum 2),
        Op.setOp "c" (JSValue.vnum 3)]).each
      (pureCb (fun k _ => if k = "b" then JSValue.vbool false
        else JSValue.vundefined))).2.length = 2 ∧
    ((mkDict false [Op.setOp "a" (JSValue.vnum 1), Op.setOp "b" (JSValue.vnum 2),
        Op.setOp "c" (JSValue.vnum 3)]).each
      (pureCb (fun _ _ => JSValue.vundefined))).2.length =
      (mkDict false [Op.setOp "a" (JSValue.vnum 1), Op.setOp "b" (JSValue.vnum 2),
        Op.setOp "c" (JSValue.vnum 3)]).eligKeys.length :=
  ⟨(c8_confirmed (mkDict false [Op.setOp "a" (JSValue.vnum 1), Op.setOp "b" (JSValue.vnum 2),
        Op.setOp "c" (JSValue.vnum 3)])
      (fun k _ => if k = "b" then JSValue.vbool false else JSValue.vundefined) 2).1
    (by decide) (by decide) (by decide)
    (fun i hi => by
      have h0 : i = 0 := by omega
      subst h0
      decide),
   (c8_confirmed (mkDict false [Op.setOp "a" (JSValue.vnum 1), Op.setOp "b" (JSValue.vnum 2),
        Op.setOp "c" (JSValue.vnum 3)])
      (fun _ _ => JSValue.vundefined) 1).2
    (fun k _ => by decide)⟩

/-- Claim C10: `asyncForEach` short-circuits on any step-callback return
value loosely equal to `false` (`== false`: e.g. `0`, `""`, `false`), not
only the literal `false`: on a nonempty dictionary a callback constantly
returning such a value (without advancing) produces exactly one step
event followed immediately by the completion, the remaining keys never
being visited — while `each`, whose test is the strict `=== false`, runs
through every eligible key for any constant return value other than the
literal `false`. -/
theorem c10_confirmed (r : JSValue) (hasCb : Bool) (d : Dictionary)
    (h1 : looseEqFalse r = true) (h2 : r ≠ JSValue.vbool false)
    (h3 : d.getKeysResult ≠ []) :
    (asyncForEachRun (constRetCb r) hasCb d).1 =
      [Ev.step (d.getKeysResult.getD 0 "") 0, Ev.complete hasCb 0] ∧
    (d.each (pureCb (fun _ _ => r))).2.map Prod.fst = d.eligKeys := by
  constructor
  · have hlt : (0 : Nat) < d.getKeysResult.length := List.length_pos.mpr h3
    have hlt2 : (⟨d.getKeysUpd, d.getKeysResult, 0⟩ : AsyncState).counter <
        (⟨d.getKeysUpd, d.getKeysResult, 0⟩ : AsyncState).keysSnap.length := hlt
    have hsched :=
      execStep_sched_of_lt (constRetCb r) hasCb ⟨d.getKeysUpd, d.getKeysResult, 0⟩ 0 hlt2
    have hevs :=
      execStep_fst_of_lt (constRetCb r) hasCb ⟨d.getKeysUpd, d.getKeysResult, 0⟩ 0 hlt2
    simp only [constRetCb] at hsched hevs
    rw [Bool.false_and] at hsched
    show ((execStep (constRetCb r) hasCb ⟨d.getKeysUpd, d.getKeysResult, 0⟩ 0).1 ++
      (runF (constRetCb r) hasCb d.getKeysResult.length
        (execStep (constRetCb r) hasCb ⟨d.getKeysUpd, d.getKeysResult, 0⟩ 0).2.1
        (execStep (constRetCb r) hasCb ⟨d.getKeysUpd, d.getKeysResult, 0⟩ 0).2.2 1).1) =
      [Ev.step (d.getKeysResult.getD 0 "") 0, Ev.complete hasCb 0]
    rw [hsched, runF_not_pending, hevs]
    simp [h1]
  · have hne : ∀ k ∈ d.eligKeys, (fun _ _ => r) k (jsGet d k) ≠ JSValue.vbool false :=
      fun k _ => h2
    have heach : (d.each (pureCb (fun _ _ => r))).2 =
        stopTrace (fun _ _ => r) d d.eligKeys := by
      rw [Dictionary.each, eachGo_pure]
      rfl
    rw [heach, stopTrace_all_of_no_false _ d _ hne, List.map_map]
    exact List.map_id _

/-- Witness for claim C10 at a concrete input: the loosely-false (but not
strictly false) value 0 over a three-entry dictionary. -/
theorem c10_confirmed_witness :
    (asyncForEachRun (constRetCb (JSValue.vnum 0)) false
      (mkDict false [Op.setOp "a" (JSValue.vnum 1), Op.setOp "b" (JSValue.vnum 2),
        Op.setOp "c" (JSValue.vnum 3)])).1 =
      [Ev.step ((mkDict false [Op.setOp "a" (JSValue.vnum 1), Op.setOp "b" (JSValue.vnum 2),
        Op.setOp "c" (JSValue.vnum 3)]).getKeysResult.getD 0 "") 0,
       Ev.complete false 0] ∧
    ((mkDict false [Op.setOp "a" (JSValue.vnum 1), Op.setOp "b" (JSValue.vnum 2),
        Op.setOp "c" (JSValue.vnum 3)]).each
      (pureCb (fun _ _ => JSValue.vnum 0))).2.map Prod.fst =
      (mkDict false [Op.setOp "a" (JSValue.vnum 1), Op.setOp "b" (JSValue.vnum 2),
        Op.setOp "c" (JSValue.vnum 3)]).eligKeys :=
  c10_confirmed (JSValue.vnum 0) false
    (mkDict false [Op.setOp "a" (JSValue.vnum 1), Op.setOp "b" (JSValue.vnum 2),
      Op.setOp "c" (JSValue.vnum 3)])
    (by decide) (by decide) (by decide)

theorem applyOp_set_invalid (d : Dictionary) (k : String) (v : JSValue) :
    (applyOp d (Op.setOp k v)).invalidateKeys = true := by
  simp only [applyOp, Dictionary.set, jsAssign, Dictionary.invalidate]
  split_ifs <;> rfl

theorem applyOp_remove_invalid (d : Dictionary) (k : String) :
    (applyOp d (Op.removeOp k)).invalidateKeys = true := by
  simp only [applyOp, Dictionary.remove, Dictionary.invalidate]
  split_ifs <;> rfl

theorem reachable_no_private {d0 : Dictionary} (h : Reachable d0) :
    "__private__" ∉ d0.objectKeys := by
  induction h with
  | init c => simp [Dictionary.init, Dictionary.objectKeys]
  | @step d op h ih =>
    cases op with
    | setOp k0 v =>
      by_cases hk : k0 = "__private__"
      · subst hk
        have heq : applyOp d (Op.setOp "__private__" v) = d.invalidate := by
          simp [applyOp, Dictionary.set, jsAssign]
        rw [heq]
        exact ih
      · intro hmem
        rcases mem_applyOp_set _ k0 v _ hmem with hm | hm
        · exact ih hm
        · exact hk hm.symm
    | removeOp k0 =>
      intro hmem
      exact ih (mem_applyOp_remove _ k0 _ hmem)
    | invalidateOp =>
      intro hmem
      exact ih hmem
    | readKeysOp =>
      intro hmem
      rw [show applyOp d Op.readKeysOp = d.getKeysUpd from rfl,
        getKeysUpd_objectKeys] at hmem
      exact ih hmem

theorem reachable_cache_inv {d0 : Dictionary} (h : Reachable d0) :
    d0.invalidateKeys = false → ∀ ks, d0.keysCache = some ks → ks = d0.objectKeys := by
  induction h with
  | init c =>
    intro _ ks hks
    simp [Dictionary.init] at hks
  | @step d op h ih =>
    cases op with
    | setOp k0 v =>
      intro hinv
      have hx := applyOp_set_invalid d k0 v
      rw [hinv] at hx
      cases hx
    | removeOp k0 =>
      intro hinv
      have hx := applyOp_remove_invalid d k0
      rw [hinv] at hx
      cases hx
    | invalidateOp =>
      intro hinv
      have hx : (applyOp d Op.invalidateOp).invalidateKeys = true := rfl
      rw [hinv] at hx
      cases hx
    | readKeysOp =>
      intro hinv ks hks
      by_cases hc : d.cacheKeys
      · by_cases hd2 : (d.invalidateKeys || d.keysCache.isNone) = true
        · have heq : d.getKeysUpd =
              { d with invalidateKeys := false, keysCache := some d.objectKeys } := by
            simp [Dictionary.getKeysUpd, hc, hd2]
          rw [show applyOp d Op.readKeysOp = d.getKeysUpd from rfl, heq] at hks ⊢
          simp only [Option.some.injEq] at hks
          rw [← hks]
          rfl
        · have heq : d.getKeysUpd = d := by
            simp [Dictionary.getKeysUpd, hc, hd2]
          rw [show applyOp d Op.readKeysOp = d.getKeysUpd from rfl, heq] at hks hinv ⊢
          exact ih hinv ks hks
      · have heq : d.getKeysUpd = d := by
          simp [Dictionary.getKeysUpd, hc]
        rw [show applyOp d Op.readKeysOp = d.getKeysUpd from rfl, heq] at hks hinv ⊢
        exact ih hinv ks hks

theorem reachable_getKeysResult {d : Dictionary} (h : Reachable d) :
    d.getKeysResult = d.objectKeys := by
  by_cases hc : d.cacheKeys
  · by_cases hd2 : (d.invalidateKeys || d.keysCache.isNone) = true
    · simp [Dictionary.getKeysResult, hc, hd2]
    · have hb : d.invalidateKeys = false ∧ d.keysCache.isNone = false := by
        constructor <;> [skip; skip] <;>
          · rcases Bool.eq_false_or_eq_true d.invalidateKeys with h1 | h1 <;>
            rcases Bool.eq_false_or_eq_true d.keysCache.isNone with h2 | h2 <;>
            simp [h1, h2] at hd2 ⊢
      rcases hcc : d.keysCache with _ | ks
      · rw [hcc] at hb
        simp at hb
      · have hks := reachable_cache_inv h hb.1 ks hcc
        simp [Dictionary.getKeysResult, hc, hb.1, hcc, hks]
  · simp [Dictionary.getKeysResult, hc]

theorem removeD_invalid (d : Dictionary) (k : String) :
    ((d.remove k).getD d.invalidate).invalidateKeys = true := by
  by_cases hk : k = "__private__" <;> simp [Dictionary.remove, Dictionary.invalidate, hk]

theorem removeD_storage (d : Dictionary) (k : String) :
    ((d.remove k).getD d.invalidate).storage =
      (if k = "__private__" then d.storage else storErase d.storage k) := by
  by_cases hk : k = "__private__" <;> simp [Dictionary.remove, Dictionary.invalidate, hk]

theorem storage_eq_nil_of_subset_nil (d : Dictionary)
    (h : ∀ k ∈ d.objectKeys, k ∈ ([] : List String)) : d.storage = [] := by
  have : d.objectKeys = [] := List.eq_nil_iff_forall_not_mem.mpr
    (fun k hk => by cases h k hk)
  exact List.map_eq_nil_iff.mp this

theorem runF_remove_all : ∀ (fuel : Nat) (st : AsyncState) (tick : Nat),
    st.keysSnap.length - st.counter + 1 ≤ fuel →
    "__private__" ∉ st.d.objectKeys →
    (∀ k ∈ st.d.objectKeys, k ∈ st.keysSnap.drop st.counter) →
    (runF removeAsyncCb false fuel st true tick).2.storage = [] ∧
    (st.counter < st.keysSnap.length →
      (runF removeAsyncCb false fuel st true tick).2.invalidateKeys = true) := by
  intro fuel
  induction fuel with
  | zero => intro st tick h; omega
  | succ f ih =>
    intro st tick hfuel hpriv hsub
    have hdef2 : (runF removeAsyncCb false (f + 1) st true tick).2 =
        (runF removeAsyncCb false f (execStep removeAsyncCb false st tick).2.1
          (execStep removeAsyncCb false st tick).2.2 (tick + 1)).2 := rfl
    rw [hdef2]
    by_cases hlt : st.counter < st.keysSnap.length
    · have hsnd := execStep_snd removeAsyncCb false st tick
      rw [if_pos hlt] at hsnd
      set kk := st.keysSnap.getD st.counter "" with hkk
      have hd1 : (execStep removeAsyncCb false st tick).2.1 =
          { st with
              d := (st.d.remove kk).getD st.d.invalidate,
              counter := st.counter + 1 } := by
        rw [show (execStep removeAsyncCb false st tick).2.1 =
          ((execStep removeAsyncCb false st tick).2).1 from rfl, hsnd]
        rfl
      have hsched : (execStep removeAsyncCb false st tick).2.2 =
          decide (st.counter + 1 < st.keysSnap.length) := by
        rw [show (execStep removeAsyncCb false st tick).2.2 =
          ((execStep removeAsyncCb false st tick).2).2 from rfl, hsnd]
        simp [removeAsyncCb]
      have hdrop : st.keysSnap.drop st.counter =
          kk :: st.keysSnap.drop (st.counter + 1) := by
        rw [hkk, List.getD_eq_getElem st.keysSnap "" hlt]
        exact List.drop_eq_getElem_cons hlt
      have hpriv1 : "__private__" ∉
          ((st.d.remove kk).getD st.d.invalidate).objectKeys := by
        intro hmem
        rw [Dictionary.objectKeys, removeD_storage] at hmem
        split_ifs at hmem with hk
        · exact hpriv hmem
        · exact hpriv ((mem_storErase_map_fst _ _ _).mp hmem).1
      have hsub1 : ∀ x ∈ ((st.d.remove kk).getD st.d.invalidate).objectKeys,
          x ∈ st.keysSnap.drop (st.counter + 1) := by
        intro x hx
        rw [Dictionary.objectKeys, removeD_storage] at hx
        split_ifs at hx with hk
        · have hx2 := hsub x hx
          rw [hdrop] at hx2
          rcases List.mem_cons.mp hx2 with rfl | hx3
          · exact absurd hx (hk ▸ hpriv)
          · exact hx3
        · obtain ⟨hx1, hx2⟩ := (mem_storErase_map_fst _ _ _).mp hx
          have hx3 := hsub x hx1
          rw [hdrop] at hx3
          rcases List.mem_cons.mp hx3 with rfl | hx4
          · exact absurd rfl hx2
          · exact hx4
      by_cases h2 : st.counter + 1 < st.keysSnap.length
      · have hs : (execStep removeAsyncCb false st tick).2.2 = true := by
          rw [hsched]; simpa using h2
        rw [hs]
        have := ih ((execStep removeAsyncCb false st tick).2.1) (tick + 1)
          (by rw [hd1]; simp; omega)
          (by rw [hd1]; exact hpriv1)
          (by rw [hd1]; exact hsub1)
        rw [hd1] at this ⊢
        exact ⟨this.1, fun _ => this.2 h2⟩
      · have hs : (execStep removeAsyncCb false st tick).2.2 = false := by
          rw [hsched]; simpa using h2
        rw [hs, runF_not_pending, hd1]
        constructor
        · have hnil : st.keysSnap.drop (st.counter + 1) = [] := by
            apply List.drop_eq_nil_of_le
            omega
          rw [hnil] at hsub1
          exact storage_eq_nil_of_subset_nil _ hsub1
        · intro _
          exact removeD_invalid st.d kk
    · obtain ⟨hev, hst⟩ := execStep_evs_of_ge removeAsyncCb false st tick hlt
      rw [show (execStep removeAsyncCb false st tick).2.1 = st from by rw [hst],
        show (execStep removeAsyncCb false st tick).2.2 = false from by rw [hst],
        runF_not_pending]
      constructor
      · have hnil : st.keysSnap.drop st.counter = [] := by
          apply List.drop_eq_nil_of_le
          omega
        rw [hnil] at hsub
        exact storage_eq_nil_of_subset_nil _ hsub
      · intro hc
        exact absurd hc hlt

theorem eachGo_remove_clean : ∀ (ks : List String) (d : Dictionary),
    (∀ k ∈ d.objectKeys, cleanKey k = true) →
    (∀ k ∈ d.objectKeys, k ∈ ks) →
    (eachGo removeEachCb ks d).1.storage = [] := by
  intro ks
  induction ks with
  | nil =>
    intro d _ hsub
    simp only [eachGo]
    exact storage_eq_nil_of_subset_nil d hsub
  | cons k tl ih =>
    intro d hclean hsub
    by_cases h : d.has k = true
    · have hknp : k ≠ "__private__" := by
        intro hk
        rw [hk, has_private] at h
        cases h
      have hstep : (eachGo removeEachCb (k :: tl) d).1 =
          (eachGo removeEachCb tl ((d.remove k).getD d.invalidate)).1 := by
        simp [eachGo, h, removeEachCb]
      rw [hstep]
      have hstor : ((d.remove k).getD d.invalidate).storage = storErase d.storage k := by
        rw [removeD_storage, if_neg hknp]
      apply ih
      · intro x hx
        rw [Dictionary.objectKeys, hstor] at hx
        exact hclean x ((mem_storErase_map_fst _ _ _).mp hx).1
      · intro x hx
        rw [Dictionary.objectKeys, hstor] at hx
        obtain ⟨hx1, hx2⟩ := (mem_storErase_map_fst _ _ _).mp hx
        rcases List.mem_cons.mp (hsub x hx1) with rfl | hx3
        · exact absurd rfl hx2
        · exact hx3
    · have h2 : d.has k = false := by simpa using h
      have hstep : eachGo removeEachCb (k :: tl) d = eachGo removeEachCb tl d := by
        simp [eachGo, h2]
      rw [hstep]
      apply ih _ hclean
      intro x hx
      rcases List.mem_cons.mp (hsub x hx) with rfl | hx3
      · exfalso
        have hx4 : d.has x = true := by
          rw [has_eq_clean_and, hclean x hx]
          simp only [Bool.true_and, Dictionary.hasOwnProp, Bool.or_eq_true]
          left
          rw [storGet_isSome_iff]
          exact hx
        rw [hx4] at h2
        cases h2
      · exact hx3

/-- Claim C7, as stated, fails on the code in its `empty()`-equivalence
part: on a dictionary holding the key `"a__private__"`, `asyncEmpty`
(which walks the raw `getKeys()` snapshot) removes the key and leaves
`size() === 0`, while the blocking `empty()` (whose `each` loop skips any
key failing the `has` guard, and `has` rejects keys containing
`"__private__"`) leaves the entry in place with `size() === 1` — so the
net effects differ. -/
theorem c7_counterexample :
    ((mkDict false [Op.setOp "a__private__" (JSValue.vnum 1)]).asyncEmptyRun).2.storage = [] ∧
    ((mkDict false [Op.setOp "a__private__" (JSValue.vnum 1)]).emptyRun).storage =
      [("a__private__", JSValue.vnum 1)] ∧
    ((mkDict false [Op.setOp "a__private__" (JSValue.vnum 1)]).emptyRun).sizeResult = 1 := by
  decide

/-- Claim C7 (amended): for every reachable dictionary with no outside
mutation during the traversal, the completion notification of
`asyncEmpty()` fires exactly once, every key present at the start has
been removed when it fires (the final storage is empty), and
`size() === 0`; and the net effect equals that of the blocking `empty()`
provided no key contains the substring `"__private__"` (in general
`empty()` skips such keys while `asyncEmpty` removes them). -/
theorem c7_amended (d : Dictionary) (h : Reachable d) :
    (completions (d.asyncEmptyRun).1).length = 1 ∧
    d.asyncEmptyCompletes = true ∧
    (d.asyncEmptyRun).2.storage = [] ∧
    ((d.asyncEmptyRun).2).sizeResult = 0 ∧
    ((∀ k ∈ d.objectKeys, cleanKey k = true) → (d.emptyRun).storage = []) := by
  have hwb : WellBehaved removeAsyncCb := fun k v dd => Or.inl ⟨rfl, rfl⟩
  have hcount : (completions (d.asyncEmptyRun).1).length = 1 :=
    runF_count_wb removeAsyncCb hwb false (d.getKeysResult.length + 1)
      ⟨d.getKeysUpd, d.getKeysResult, 0⟩ 0
      (by show d.getKeysResult.length - 0 + 1 ≤ d.getKeysResult.length + 1; omega)
  have hpriv : "__private__" ∉ (d.getKeysUpd).objectKeys := by
    rw [getKeysUpd_objectKeys]
    exact reachable_no_private h
  have hsub : ∀ k ∈ (d.getKeysUpd).objectKeys, k ∈ d.getKeysResult.drop 0 := by
    intro k hk
    rw [getKeysUpd_objectKeys] at hk
    rw [List.drop_zero, reachable_getKeysResult h]
    exact hk
  have hrem := runF_remove_all (d.getKeysResult.length + 1)
    ⟨d.getKeysUpd, d.getKeysResult, 0⟩ 0
    (by show d.getKeysResult.length - 0 + 1 ≤ d.getKeysResult.length + 1; omega)
    hpriv hsub
  have hstor : (d.asyncEmptyRun).2.storage = [] := hrem.1
  refine ⟨hcount, ?_, hstor, ?_, ?_⟩
  · -- a completion event exists since the completion count is one
    rcases hcc : completions (d.asyncEmptyRun).1 with _ | ⟨e, tl⟩
    · rw [hcc] at hcount
      cases hcount
    · have he : e ∈ completions (d.asyncEmptyRun).1 := by
        rw [hcc]
        exact List.mem_cons_self _ _
      obtain ⟨hmem, hcomp⟩ := List.mem_filter.mp he
      rw [Dictionary.asyncEmptyCompletes, List.any_eq_true]
      exact ⟨e, hmem, hcomp⟩
  · rcases hks : d.getKeysResult with _ | ⟨k0, ktl⟩
    · -- no keys: the traversal performs no removal and the state stays getKeysUpd d
      have hfin : (d.asyncEmptyRun).2 = d.getKeysUpd := by
        show (runF removeAsyncCb false (d.getKeysResult.length + 1)
          ⟨d.getKeysUpd, d.getKeysResult, 0⟩ true 0).2 = d.getKeysUpd
        have hge : ¬ (⟨d.getKeysUpd, d.getKeysResult, 0⟩ : AsyncState).counter <
            (⟨d.getKeysUpd, d.getKeysResult, 0⟩ : AsyncState).keysSnap.length := by
          simp [hks]
        have hdef2 : (runF removeAsyncCb false (d.getKeysResult.length + 1)
            ⟨d.getKeysUpd, d.getKeysResult, 0⟩ true 0).2 =
            (runF removeAsyncCb false d.getKeysResult.length
              (execStep removeAsyncCb false ⟨d.getKeysUpd, d.getKeysResult, 0⟩ 0).2.1
              (execStep removeAsyncCb false ⟨d.getKeysUpd, d.getKeysResult, 0⟩ 0).2.2 1).2 := rfl
        obtain ⟨hev, hst⟩ := execStep_evs_of_ge removeAsyncCb false _ 0 hge
        rw [hdef2, show (execStep removeAsyncCb false
            ⟨d.getKeysUpd, d.getKeysResult, 0⟩ 0).2.1 =
            (⟨d.getKeysUpd, d.getKeysResult, 0⟩ : AsyncState) from by rw [hst],
          show (execStep removeAsyncCb false ⟨d.getKeysUpd, d.getKeysResult, 0⟩ 0).2.2 =
            false from by rw [hst], runF_not_pending]
      rw [Dictionary.sizeResult, hfin, getKeysResult_upd, hks]
      rfl
    · have hlt : (⟨d.getKeysUpd, d.getKeysResult, 0⟩ : AsyncState).counter <
          (⟨d.getKeysUpd, d.getKeysResult, 0⟩ : AsyncState).keysSnap.length := by
        simp [hks]
      have hinv : (d.asyncEmptyRun).2.invalidateKeys = true := hrem.2 hlt
      rw [Dictionary.sizeResult, getKeysResult_of_invalid _ hinv, Dictionary.objectKeys,
        hstor]
      rfl
  · intro hclean
    rw [Dictionary.emptyRun, Dictionary.each]
    exact eachGo_remove_clean d.forInKeys d hclean
      (fun k hk => by
        rw [Dictionary.forInKeys]
        exact List.mem_append_left _ hk)

/-- Witness for the amended claim C7 at a concrete five-entry dictionary. -/
theorem c7_amended_witness :
    (completions ((mkDict false [Op.setOp "a" (JSValue.vnum 1), Op.setOp "b" (JSValue.vnum 2),
      Op.setOp "c" (JSValue.vnum 3), Op.setOp "d" (JSValue.vnum 4),
      Op.setOp "e" (JSValue.vnum 5)]).asyncEmptyRun).1).length = 1 ∧
    (mkDict false [Op.setOp "a" (JSValue.vnum 1), Op.setOp "b" (JSValue.vnum 2),
      Op.setOp "c" (JSValue.vnum 3), Op.setOp "d" (JSValue.vnum 4),
      Op.setOp "e" (JSValue.vnum 5)]).asyncEmptyCompletes = true ∧
    ((mkDict false [Op.setOp "a" (JSValue.vnum 1), Op.setOp "b" (JSValue.vnum 2),
      Op.setOp "c" (JSValue.vnum 3), Op.setOp "d" (JSValue.vnum 4),
      Op.setOp "e" (JSValue.vnum 5)]).asyncEmptyRun).2.storage = [] ∧
    (((mkDict false [Op.setOp "a" (JSValue.vnum 1), Op.setOp "b" (JSValue.vnum 2),
      Op.setOp "c" (JSValue.vnum 3), Op.setOp "d" (JSValue.vnum 4),
      Op.setOp "e" (JSValue.vnum 5)]).asyncEmptyRun).2).sizeResult = 0 ∧
    ((∀ k ∈ (mkDict false [Op.setOp "a" (JSValue.vnum 1), Op.setOp "b" (JSValue.vnum 2),
      Op.setOp "c" (JSValue.vnum 3), Op.setOp "d" (JSValue.vnum 4),
      Op.setOp "e" (JSValue.vnum 5)]).objectKeys, cleanKey k = true) →
      ((mkDict false [Op.setOp "a" (JSValue.vnum 1), Op.setOp "b" (JSValue.vnum 2),
        Op.setOp "c" (JSValue.vnum 3), Op.setOp "d" (JSValue.vnum 4),
        Op.setOp "e" (JSValue.vnum 5)]).emptyRun).storage = []) :=
  c7_amended (mkDict false [Op.setOp "a" (JSValue.vnum 1), Op.setOp "b" (JSValue.vnum 2),
      Op.setOp "c" (JSValue.vnum 3), Op.setOp "d" (JSValue.vnum 4),
      Op.setOp "e" (JSValue.vnum 5)])
    (Reachable.step (Op.setOp "e" (JSValue.vnum 5))
      (Reachable.step (Op.setOp "d" (JSValue.vnum 4))
        (Reachable.step (Op.setOp "c" (JSValue.vnum 3))
          (Reachable.step (Op.setOp "b" (JSValue.vnum 2))
            (Reachable.step (Op.setOp "a" (JSValue.vnum 1))
              (Reachable.init false))))))

theorem digitChar_ne_underscore (m : Nat) : Nat.digitChar m ≠ '_' := by
  by_cases h : m < 16
  · interval_cases m <;> decide
  · have h16 : Nat.digitChar m = '*' := by
      unfold Nat.digitChar
      iterate 16 rw [if_neg (by omega)]
    rw [h16]
    decide

theorem toDigitsCore_ne_underscore :
    ∀ (f n : Nat) (ds : List Char), (∀ c ∈ ds, c ≠ '_') →
      ∀ c ∈ Nat.toDigitsCore 10 f n ds, c ≠ '_' := by
  intro f
  induction f with
  | zero => intro n ds hds; exact hds
  | succ f ih =>
    intro n ds hds c hc
    simp only [Nat.toDigitsCore] at hc
    have hcons : ∀ x ∈ Nat.digitChar (n % 10) :: ds, x ≠ '_' := by
      intro x hx
      rcases List.mem_cons.mp hx with rfl | hx2
      · exact digitChar_ne_underscore _
      · exact hds x hx2
    split at hc
    · exact hcons c hc
    · exact ih (n / 10) (Nat.digitChar (n % 10) :: ds) hcons c hc

theorem repr_ne_private (n : Nat) : Nat.repr n ≠ "__private__" := by
  intro h
  have h2 : ∀ c ∈ Nat.toDigits 10 n, c ≠ '_' :=
    toDigitsCore_ne_underscore (n + 1) n [] (by intro c hc; cases hc)
  have h3 : Nat.toDigits 10 n = "__private__".toList := by
    have h4 : Nat.repr n = "__private__" := h
    unfold Nat.repr at h4
    exact congrArg String.toList h4
  have h5 : '_' ∈ Nat.toDigits 10 n := by
    rw [h3]
    decide
  exact h2 '_' h5 rfl

theorem storGet_mem_snd : ∀ (l : List (String × JSValue)) (k : String) (v : JSValue),
    storGet l k = some v → v ∈ l.map Prod.snd := by
  intro l
  induction l with
  | nil => intro k v h; cases h
  | cons p tl ih =>
    intro k v h
    obtain ⟨a, b⟩ := p
    by_cases ha : a = k
    · rw [storGet, if_pos ha] at h
      cases h
      exact List.mem_cons_self _ _
    · rw [storGet, if_neg ha] at h
      exact List.mem_cons_of_mem _ (ih k v h)

theorem jsGet_ne_internal (d : Dictionary) (k : String) (hk : k ≠ "__private__")
    (hstore : JSValue.vobj "DictionaryInner" ∉ d.storage.map Prod.snd) :
    jsGet d k ≠ JSValue.vobj "DictionaryInner" := by
  unfold jsGet
  rw [if_neg hk]
  rcases hsg : storGet d.storage k with _ | v
  · simp only
    split_ifs <;> simp
  · simp only
    intro heq
    rw [heq] at hsg
    exact hstore (storGet_mem_snd _ _ _ hsg)

theorem eachGo_no_private : ∀ (cb : EachCb) (ks : List String) (d : Dictionary),
    "__private__" ∉ (eachGo cb ks d).2.map Prod.fst := by
  intro cb ks
  induction ks with
  | nil => intro d; simp [eachGo]
  | cons k tl ih =>
    intro d
    by_cases h : d.has k = true
    · have hk : k ≠ "__private__" := by
        intro he
        rw [he, has_private] at h
        cases h
      rcases hcb : cb k (jsGet d k) d with ⟨r, d1⟩
      by_cases hr : r = JSValue.vbool false
      · have hstep : (eachGo cb (k :: tl) d).2 = [(k, jsGet d k)] := by
          simp [eachGo, h, hcb, hr]
        rw [hstep]
        intro hmem
        rcases List.mem_map.mp hmem with ⟨p, hp, hfst⟩
        rcases List.mem_singleton.mp hp with rfl
        exact hk hfst
      · have hstep : (eachGo cb (k :: tl) d).2 =
            (k, jsGet d k) :: (eachGo cb tl d1).2 := by
          simp [eachGo, h, hcb, hr]
        rw [hstep]
        intro hmem
        rcases List.mem_map.mp hmem with ⟨p, hp, hfst⟩
        rcases List.mem_cons.mp hp with rfl | hp2
        · exact hk hfst
        · exact ih d1 (List.mem_map.mpr ⟨p, hp2, hfst⟩)
    · have h2 : d.has k = false := by simpa using h
      have hstep : (eachGo cb (k :: tl) d).2 = (eachGo cb tl d).2 := by
        simp [eachGo, h2]
      rw [hstep]
      exact ih d

theorem async_no_private (d : Dictionary) (h : Reachable d) (cb : Callback) (hasCb : Bool) :
    "__private__" ∉ asyncStepKeys (asyncForEachRun cb hasCb d).1 := by
  intro hmem
  rw [asyncStepKeys, List.mem_filterMap] at hmem
  obtain ⟨e, he, hkey⟩ := hmem
  rcases (runF_shape cb hasCb _ _ _ _ e he).2 with ⟨k, hk, heq⟩ | heq
  · rw [heq] at hkey
    simp only [Ev.stepKey, Option.some.injEq] at hkey
    subst hkey
    have hk2 : "__private__" ∈ d.getKeysResult := hk
    rw [reachable_getKeysResult h] at hk2
    exact reachable_no_private h hk2
  · rw [heq] at hkey
    cases hkey

/-- Claim C6: in every reachable dictionary state (whose user entries do
not themselves hold the internal record), the reserved cache-state field
`__private__` never appears among the keys returned by `getKeys()`, the
internal record never appears in `values()`, the field is absent from
`entries()`, uncounted by `size()`, and never visited by `each` or
`asyncForEach`. -/
theorem c6_confirmed (d : Dictionary) (cb : EachCb) (cbA : Callback) (hasCb : Bool)
    (h : Reachable d)
    (hstore : JSValue.vobj "DictionaryInner" ∉ d.storage.map Prod.snd) :
    "__private__" ∉ d.getKeysResult ∧
    JSValue.vobj "DictionaryInner" ∉ d.valuesResult ∧
    "__private__" ∉ (d.entriesResult).map Prod.fst ∧
    d.sizeResult = (d.getKeysResult.filter (fun k => k ≠ "__private__")).length ∧
    "__private__" ∉ (d.each cb).2.map Prod.fst ∧
    "__private__" ∉ asyncStepKeys (asyncForEachRun cbA hasCb d).1 := by
  have hg : "__private__" ∉ d.getKeysResult := by
    rw [reachable_getKeysResult h]
    exact reachable_no_private h
  refine ⟨hg, ?_, ?_, ?_, eachGo_no_private cb d.forInKeys d, async_no_private d h cbA hasCb⟩
  · intro hmem
    rw [Dictionary.valuesResult] at hmem
    obtain ⟨i, _, heq⟩ := List.mem_map.mp hmem
    exact jsGet_ne_internal d (Nat.repr i) (repr_ne_private i) hstore heq
  · have hfst : (d.entriesResult).map Prod.fst = d.getKeysResult := by
      rw [Dictionary.entriesResult, List.map_map]
      exact List.map_id _
    rw [hfst]
    exact hg
  · have hfilter : d.getKeysResult.filter (fun k => k ≠ "__private__") =
        d.getKeysResult := by
      apply List.filter_eq_self.mpr
      intro a ha
      have hne : a ≠ "__private__" := fun he => hg (he ▸ ha)
      simpa using hne
    rw [hfilter]
    rfl

/-- Witness for claim C6 at a concrete reachable dictionary. -/
theorem c6_confirmed_witness :
    "__private__" ∉ (mkDict false [Op.setOp "a" (JSValue.vnum 1)]).getKeysResult ∧
    JSValue.vobj "DictionaryInner" ∉ (mkDict false [Op.setOp "a" (JSValue.vnum 1)]).valuesResult ∧
    "__private__" ∉ ((mkDict false [Op.setOp "a" (JSValue.vnum 1)]).entriesResult).map Prod.fst ∧
    (mkDict false [Op.setOp "a" (JSValue.vnum 1)]).sizeResult =
      ((mkDict false [Op.setOp "a" (JSValue.vnum 1)]).getKeysResult.filter
        (fun k => k ≠ "__private__")).length ∧
    "__private__" ∉ ((mkDict false [Op.setOp "a" (JSValue.vnum 1)]).each
      (pureCb (fun _ _ => JSValue.vundefined))).2.map Prod.fst ∧
    "__private__" ∉ asyncStepKeys (asyncForEachRun advanceCb false
      (mkDict false [Op.setOp "a" (JSValue.vnum 1)])).1 :=
  c6_confirmed (mkDict false [Op.setOp "a" (JSValue.vnum 1)])
    (pureCb (fun _ _ => JSValue.vundefined)) advanceCb false
    (Reachable.step (Op.setOp "a" (JSValue.vnum 1)) (Reachable.init false))
    (by decide)
